import Mathlib

/-!
Verification development for the alectryon CLI core (`cli.py`): the
annotated-fragment data model, the chunk/fragment partitioning algorithm
(`partition_fragments`, `split_single_chunk`), the interchange encoding
(`prepare_json`, `COQ_TYPE_NAMES`) and the driver's input dispatch
(`read_input`, `main`'s per-input processing).

Strings are embedded as `List Char`.  The record types `CoqText`,
`CoqSentence`, `CoqGoal`, `CoqHypothesis` are namedtuples imported from
`core.py`, which is not part of the sources at hand; their field lists are
modelled from the specification (§3 of the spec).
-/

namespace Alectryon

/-- Python strings, embedded as lists of characters. -/
abbrev LStr := List Char

/-- Coerce a Lean string literal to the `List Char` embedding. -/
def lstr (s : String) : LStr := s.toList

/-- Modelled from the spec: `CoqHypothesis` (from the absent `core.py`) —
"one or more bound names; the hypothesis's type/statement text; optional
definition body". -/
structure CoqHypothesis where
  names : List LStr
  type : LStr
  body : Option LStr
deriving DecidableEq, Repr

/-- Modelled from the spec: `CoqGoal` (from the absent `core.py`) — "a
name/index; ordered sequence of Hypothesis records in scope; the goal's
conclusion text". -/
structure CoqGoal where
  name : LStr
  hypotheses : List CoqHypothesis
  conclusion : LStr
deriving DecidableEq, Repr

/-- Modelled from the spec: the closed tagged union of the four Fragment
kinds (§3).  `text` is `CoqText` (its `string` field name is visible in
`cli.py`, line 58); `sentence` is `CoqSentence` with "original statement
text; ordered sequence of zero or more Goal snapshots; an opaque
success/failure indicator"; standalone goals and hypotheses are of the
remaining two kinds. -/
inductive Fragment
  | text (string : LStr)
  | sentence (sentence : LStr) (goals : List CoqGoal) (outcome : Bool)
  | goal (g : CoqGoal)
  | hypothesis (h : CoqHypothesis)
deriving DecidableEq, Repr

/-- Characters that can occur inside a match of
`COQ_SPLIT_RE = re.compile(r"(?:[ \t]*\n){2,}")`. -/
def isBlank (c : Char) : Bool := c = ' ' || c = '\t' || c = '\n'

/-- Split a list at its LAST newline: returns `(p, q)` with `p ++ q` the
input, `p` ending just after the last `'\n'`, or `none` when there is no
newline. -/
def splitAtLastNL : LStr → Option (LStr × LStr)
  | [] => none
  | c :: cs =>
    match splitAtLastNL cs with
    | some (p, q) => some (c :: p, q)
    | none => if c = '\n' then some ([c], cs) else none

/-- `COQ_SPLIT_RE.match(s)` for `COQ_SPLIT_RE = re.compile(r"(?:[ \t]*\n){2,}")`,
returning `some (matched, remainder)` on a match (so `matched` is the text
consumed by the match and `remainder` is `s[m.end():]`).

The regex greedily matches repetitions of `[ \t]*\n`, each consuming a run
of horizontal whitespace followed by one newline.  Since every repetition
lies inside the leading run of blank characters (space, tab, newline) of
`s` and ends at a newline, the full greedy match is exactly the leading
blank run of `s` truncated just after its last newline, and the number of
repetitions equals the number of newlines in it; the match succeeds when
there are at least two repetitions. -/
def COQ_SPLIT_RE_match (s : LStr) : Option (LStr × LStr) :=
  match splitAtLastNL (s.takeWhile isBlank) with
  | some (p, _) => if 2 ≤ p.count '\n' then some (p, s.drop p.length) else none
  | none => none

/-- The loop body of `partition_fragments` (`cli.py`, lines 51-62), with the
mutable `partitioned` list represented by the already-closed chunks (emitted
in the result) and the chunk currently being built (`cur`):
for each fragment, a `CoqText` whose string has a leading blank-run match
closes the current chunk when it is non-empty, is stripped of the match,
and is dropped entirely when nothing remains; every surviving fragment is
appended to the current chunk. -/
def partition_fragments_aux (cur : List Fragment) : List Fragment → List (List Fragment)
  | [] => [cur]
  | f :: rest =>
    match f with
    | .text s =>
      match COQ_SPLIT_RE_match s with
      | some (_, r) =>
        if cur = [] then
          if r = [] then partition_fragments_aux [] rest
          else partition_fragments_aux [Fragment.text r] rest
        else
          if r = [] then cur :: partition_fragments_aux [] rest
          else cur :: partition_fragments_aux [Fragment.text r] rest
      | none => partition_fragments_aux (cur ++ [f]) rest
    | _ => partition_fragments_aux (cur ++ [f]) rest

/-- `partition_fragments` (`cli.py`, lines 41-62): split a list of
fragments into whitespace-delimited runs, starting from `partitioned = [[]]`. -/
def partition_fragments (fragments : List Fragment) : List (List Fragment) :=
  partition_fragments_aux [] fragments

/-- `split_single_chunk` (`cli.py`, lines 64-71): `assert len(chunks) == 1`
then `partition_fragments(chunks[0])`; the assertion failure is embedded as
`none`. -/
def split_single_chunk (chunks : List (List Fragment)) : Option (List (List Fragment)) :=
  match chunks with
  | [c] => some (partition_fragments c)
  | _ => none

/-- The blank-run separator characters that `partition_fragments` strips
from a fragment: the leading `COQ_SPLIT_RE` match of a `CoqText`, nothing
for any other fragment. -/
def matchedSep (f : Fragment) : LStr :=
  match f with
  | .text s =>
    match COQ_SPLIT_RE_match s with
    | some (p, _) => p
    | none => []
  | _ => []

/-- What survives of one input fragment in the output of
`partition_fragments`: a `CoqText` with a leading blank-run match keeps its
remainder (or vanishes when the remainder is empty); everything else
survives unchanged. -/
def stripFrag (f : Fragment) : List Fragment :=
  match f with
  | .text s =>
    match COQ_SPLIT_RE_match s with
    | some (_, r) => if r = [] then [] else [Fragment.text r]
    | none => [f]
  | _ => [f]

/-- The raw text carried by a fragment: the string of a `CoqText`, the
statement text of a `CoqSentence`, and the conclusion/type text of the
standalone goal/hypothesis kinds. -/
def rawText : Fragment → LStr
  | .text s => s
  | .sentence s _ _ => s
  | .goal g => g.conclusion
  | .hypothesis h => h.type

/-- A fragment on which `partition_fragments` finds a leading blank-run
separator. -/
def isSep (f : Fragment) : Bool :=
  match f with
  | .text s => (COQ_SPLIT_RE_match s).isSome
  | _ => false

/-- A separator fragment that is pure separator: stripping the blank-run
match leaves nothing. -/
def isPureSep (f : Fragment) : Bool :=
  match f with
  | .text s =>
    match COQ_SPLIT_RE_match s with
    | some (_, r) => r.isEmpty
    | none => false
  | _ => false

/-- Scalar (non-container, non-Fragment) Python/JSON values reaching
`prepare_json`; they encode to themselves. -/
inductive Atom
  | null
  | bool (b : Bool)
  | str (s : LStr)
  | num (n : Int)
deriving DecidableEq, Repr

/-- The plain nested-map/array JSON form produced by `prepare_json`. -/
inductive Json
  | atom (a : Atom)
  | arr (xs : List Json)
  | obj (kvs : List (LStr × Json))

/-- Modelled from the spec: `HTMLSentence` (from the absent `html.py`), the
renderer-specific fifth variant — "a renderer-specific Sentence variant
enriched with presentation markup" (§4.3, §9): the Sentence fields plus
the presentation markup.  It is only ever produced by a renderer, never by
the oracle, so it is not one of the four `Fragment` kinds; its mappings
carry the fifth `COQ_TYPE_NAMES` token and are accepted on decode. -/
structure HTMLSentence where
  sentence : LStr
  goals : List CoqGoal
  outcome : Bool
  html : LStr
deriving DecidableEq, Repr

/-- A Python value fed to `prepare_json`: a list, a dict, one of the
`COQ_TYPES` records — including the renderer-layered `HTMLSentence`
variant — or a scalar left unchanged. -/
inductive PyVal
  | atom (a : Atom)
  | list (xs : List PyVal)
  | dict (kvs : List (LStr × PyVal))
  | frag (f : Fragment)
  | html (h : HTMLSentence)

/-- The kind of a Fragment (which of the four `COQ_TYPES` records it is). -/
inductive FragKind
  | text
  | sentence
  | goal
  | hypothesis
deriving DecidableEq, Repr

/-- The kind of a fragment. -/
def kindOf : Fragment → FragKind
  | .text _ => .text
  | .sentence _ _ _ => .sentence
  | .goal _ => .goal
  | .hypothesis _ => .hypothesis

/-- `type(obj).__name__` for each fragment kind. -/
def kindName : FragKind → LStr
  | .text => lstr "CoqText"
  | .sentence => lstr "CoqSentence"
  | .goal => lstr "CoqGoal"
  | .hypothesis => lstr "CoqHypothesis"

/-- `type(obj).__name__` of a fragment. -/
def typeName (f : Fragment) : LStr := kindName (kindOf f)

/-- `COQ_TYPE_NAMES` (`cli.py`, lines 145-151): the mapping from record
class name to interchange discriminator token. -/
def COQ_TYPE_NAMES : List (LStr × LStr) :=
  [(lstr "CoqHypothesis", lstr "hypothesis"),
   (lstr "CoqGoal", lstr "goal"),
   (lstr "CoqSentence", lstr "sentence"),
   (lstr "HTMLSentence", lstr "html_sentence"),
   (lstr "CoqText", lstr "text")]

/-- `COQ_TYPE_NAMES[type(obj).__name__]`: the discriminator token recorded
for a record class name. -/
def typeToken (tn : LStr) : LStr := (COQ_TYPE_NAMES.lookup tn).getD []

/-- The discriminator token of a fragment kind. -/
def discrOfKind (k : FragKind) : LStr := typeToken (kindName k)

/-- Encoding of one `CoqHypothesis` field value each: `names` is a list of
strings, `type` a string, `body` an optional string (absent encodes to
null). -/
def hypFields (h : CoqHypothesis) : List (LStr × Json) :=
  [(lstr "names", .arr (h.names.map fun n => .atom (.str n))),
   (lstr "type", .atom (.str h.type)),
   (lstr "body", match h.body with
                 | none => .atom .null
                 | some b => .atom (.str b))]

/-- `prepare_json` of a standalone `CoqHypothesis`: discriminator entry
first, then one entry per field (`zip(obj._fields, obj)`). -/
def hypJson (h : CoqHypothesis) : Json :=
  .obj ((lstr "_type", .atom (.str (typeToken (lstr "CoqHypothesis")))) :: hypFields h)

/-- Encoding of one `CoqGoal` field value each: `name` and `conclusion` are
strings, `hypotheses` a list of encoded hypothesis records. -/
def goalFields (g : CoqGoal) : List (LStr × Json) :=
  [(lstr "name", .atom (.str g.name)),
   (lstr "hypotheses", .arr (g.hypotheses.map hypJson)),
   (lstr "conclusion", .atom (.str g.conclusion))]

/-- `prepare_json` of a standalone `CoqGoal`. -/
def goalJson (g : CoqGoal) : Json :=
  .obj ((lstr "_type", .atom (.str (typeToken (lstr "CoqGoal")))) :: goalFields g)

/-- Encoding of one `HTMLSentence` field value each: the Sentence fields
plus the presentation markup string. -/
def htmlFields (h : HTMLSentence) : List (LStr × Json) :=
  [(lstr "sentence", .atom (.str h.sentence)),
   (lstr "goals", .arr (h.goals.map goalJson)),
   (lstr "outcome", .atom (.bool h.outcome)),
   (lstr "html", .atom (.str h.html))]

/-- The per-field entries `zip(obj._fields, obj)` of `prepare_json`'s
record branch, one entry per field of the record, every value recursively
encoded. -/
def fieldEntries : Fragment → List (LStr × Json)
  | .text s => [(lstr "string", .atom (.str s))]
  | .sentence s gs b =>
    [(lstr "sentence", .atom (.str s)),
     (lstr "goals", .arr (gs.map goalJson)),
     (lstr "outcome", .atom (.bool b))]
  | .goal g => goalFields g
  | .hypothesis h => hypFields h

/-- The field names, per kind, of the modelled records. -/
def fieldNames : FragKind → List LStr
  | .text => [lstr "string"]
  | .sentence => [lstr "sentence", lstr "goals", lstr "outcome"]
  | .goal => [lstr "name", lstr "hypotheses", lstr "conclusion"]
  | .hypothesis => [lstr "names", lstr "type", lstr "body"]

/-- `prepare_json` (`cli.py`, lines 153-162): lists and dicts encode
recursively to themselves, a `COQ_TYPES` record encodes to the mapping
holding the discriminator entry `"_type": COQ_TYPE_NAMES[type(obj).__name__]`
first and then one entry per field from `zip(obj._fields, obj)`, and
anything else is returned unchanged.  The renderer's `HTMLSentence` (a
Sentence subtype, which is why `COQ_TYPE_NAMES` carries the
`"HTMLSentence"` key) reaches the record branch too, encoding under its
own type name's token. -/
def prepare_json : PyVal → Json
  | .atom a => .atom a
  | .frag f => .obj ((lstr "_type", .atom (.str (typeToken (typeName f)))) :: fieldEntries f)
  | .html h => .obj ((lstr "_type", .atom (.str (typeToken (lstr "HTMLSentence")))) :: htmlFields h)
  | .list xs => .arr (prepareList xs)
  | .dict kvs => .obj (prepareDict kvs)
where
  /-- `[prepare_json(x) for x in obj]`. -/
  prepareList : List PyVal → List Json
    | [] => []
    | x :: xs => prepare_json x :: prepareList xs
  /-- `\x7bk: prepare_json(v) for k, v in obj.items()\x7d`. -/
  prepareDict : List (LStr × PyVal) → List (LStr × Json)
    | [] => []
    | (k, v) :: kvs => (k, prepare_json v) :: prepareDict kvs

/-- Modelled from the spec: decode a list of encoded strings (used for a
hypothesis's `names` field). -/
def decodeStrList : List Json → Option (List LStr)
  | [] => some []
  | .atom (.str s) :: xs =>
    match decodeStrList xs with
    | some l => some (s :: l)
    | none => none
  | _ => none

/-- Modelled from the spec: decode the field entries of an encoded
`CoqHypothesis` mapping (the entries after the discriminator). -/
def decodeHyp (kvs : List (LStr × Json)) : Option CoqHypothesis :=
  match kvs with
  | [(k1, .arr ns), (k2, .atom (.str t)), (k3, bodyJ)] =>
    if k1 = lstr "names" ∧ k2 = lstr "type" ∧ k3 = lstr "body" then
      match decodeStrList ns, bodyJ with
      | some names, .atom .null => some ⟨names, t, none⟩
      | some names, .atom (.str b) => some ⟨names, t, some b⟩
      | _, _ => none
    else none
  | _ => none

/-- Modelled from the spec: decode one encoded `CoqHypothesis` mapping
(discriminator entry first). -/
def decodeHypJson : Json → Option CoqHypothesis
  | .obj ((k0, .atom (.str tok)) :: rest) =>
    if k0 = lstr "_type" ∧ tok = lstr "hypothesis" then decodeHyp rest else none
  | _ => none

/-- Modelled from the spec: decode a list of encoded hypothesis mappings. -/
def decodeHypList : List Json → Option (List CoqHypothesis)
  | [] => some []
  | x :: xs =>
    match decodeHypJson x, decodeHypList xs with
    | some h, some l => some (h :: l)
    | _, _ => none

/-- Modelled from the spec: decode the field entries of an encoded
`CoqGoal` mapping. -/
def decodeGoal (kvs : List (LStr × Json)) : Option CoqGoal :=
  match kvs with
  | [(k1, .atom (.str n)), (k2, .arr hs), (k3, .atom (.str c))] =>
    if k1 = lstr "name" ∧ k2 = lstr "hypotheses" ∧ k3 = lstr "conclusion" then
      match decodeHypList hs with
      | some l => some ⟨n, l, c⟩
      | none => none
    else none
  | _ => none

/-- Modelled from the spec: decode one encoded `CoqGoal` mapping. -/
def decodeGoalJson : Json → Option CoqGoal
  | .obj ((k0, .atom (.str tok)) :: rest) =>
    if k0 = lstr "_type" ∧ tok = lstr "goal" then decodeGoal rest else none
  | _ => none

/-- Modelled from the spec: decode a list of encoded goal mappings. -/
def decodeGoalList : List Json → Option (List CoqGoal)
  | [] => some []
  | x :: xs =>
    match decodeGoalJson x, decodeGoalList xs with
    | some g, some l => some (g :: l)
    | _, _ => none

/-- Modelled from the spec: decode the field entries of an encoded
`HTMLSentence` mapping (the renderer-specific fifth variant). -/
def decodeHtmlFields (kvs : List (LStr × Json)) : Option HTMLSentence :=
  match kvs with
  | [(k1, .atom (.str s)), (k2, .arr gs), (k3, .atom (.bool b)), (k4, .atom (.str m))] =>
    if k1 = lstr "sentence" ∧ k2 = lstr "goals" ∧ k3 = lstr "outcome" ∧ k4 = lstr "html" then
      match decodeGoalList gs with
      | some gl => some ⟨s, gl, b, m⟩
      | none => none
    else none
  | _ => none

/-- Modelled from the spec: decode a mapping carrying a discriminator entry
(§4.3: dispatch on the discriminator token, fail on an unrecognized token
or missing/malformed field).  All five tokens are recognized: the four
Fragment kinds, and `"html_sentence"` — the renderer-specific fifth
variant, which the spec says is accepted on decode though only ever
produced by a renderer. -/
def decodeFrag (kvs : List (LStr × Json)) : Option PyVal :=
  match kvs with
  | (k0, .atom (.str tok)) :: rest =>
    if k0 = lstr "_type" then
      if tok = lstr "text" then
        match rest with
        | [(k, .atom (.str s))] =>
          if k = lstr "string" then some (.frag (.text s)) else none
        | _ => none
      else if tok = lstr "sentence" then
        match rest with
        | [(k1, .atom (.str s)), (k2, .arr gs), (k3, .atom (.bool b))] =>
          if k1 = lstr "sentence" ∧ k2 = lstr "goals" ∧ k3 = lstr "outcome" then
            match decodeGoalList gs with
            | some gl => some (.frag (.sentence s gl b))
            | none => none
          else none
        | _ => none
      else if tok = lstr "goal" then
        match decodeGoal rest with
        | some g => some (.frag (.goal g))
        | none => none
      else if tok = lstr "hypothesis" then
        match decodeHyp rest with
        | some h => some (.frag (.hypothesis h))
        | none => none
      else if tok = lstr "html_sentence" then
        match decodeHtmlFields rest with
        | some h => some (.html h)
        | none => none
      else none
    else none
  | _ => none

/-- Modelled from the spec: `decode`, the exact reverse of the interchange
encoding (§4.3).  The decode direction is not among the sources at hand
(only `prepare_json` is); per the spec, sequences and mappings decode
recursively, a mapping carrying the reserved `"_type"` discriminator key
decodes to the record it encodes (any of the five recognized discriminator
tokens, the renderer-specific `"html_sentence"` included), and malformed
input fails. -/
def decode_json : Json → Option PyVal
  | .atom a => some (.atom a)
  | .arr xs =>
    match decodeList xs with
    | some vs => some (.list vs)
    | none => none
  | .obj kvs =>
    if lstr "_type" ∈ kvs.map Prod.fst then
      decodeFrag kvs
    else
      match decodeDict kvs with
      | some d => some (.dict d)
      | none => none
where
  /-- Decode each element of an encoded sequence. -/
  decodeList : List Json → Option (List PyVal)
    | [] => some []
    | x :: xs =>
      match decode_json x, decodeList xs with
      | some v, some vs => some (v :: vs)
      | _, _ => none
  /-- Decode each value of a plain encoded mapping. -/
  decodeDict : List (LStr × Json) → Option (List (LStr × PyVal))
    | [] => some []
    | (k, x) :: kvs =>
      match decode_json x, decodeDict kvs with
      | some v, some vs => some ((k, v) :: vs)
      | _, _ => none

set_option linter.unusedVariables false in
/-- Nested induction principle for `Json` (its constructors carry lists of
values and of key-value pairs). -/
def Json.inductionOn (P : Json → Prop)
    (hatom : ∀ a, P (.atom a))
    (harr : ∀ xs, (∀ x ∈ xs, P x) → P (.arr xs))
    (hobj : ∀ kvs, (∀ kv ∈ kvs, P kv.2) → P (.obj kvs)) :
    ∀ m, P m
  | .atom a => hatom a
  | .arr xs => harr xs (fun x hx => Json.inductionOn P hatom harr hobj x)
  | .obj kvs => hobj kvs (fun kv hkv => Json.inductionOn P hatom harr hobj kv.2)
termination_by m => sizeOf m
decreasing_by
  · have := List.sizeOf_lt_of_mem hx
    simp only [Json.arr.sizeOf_spec]
    omega
  · have h1 := List.sizeOf_lt_of_mem hkv
    have h2 : sizeOf kv.2 < sizeOf kv := by
      rcases kv with ⟨k, v⟩
      simp only [Prod.mk.sizeOf_spec]
      omega
    simp only [Json.obj.sizeOf_spec]
    omega

/-- The post-processing step `read_input` selects for an input unit:
`split_single_chunk` for a `.v` file, the identity `lambda chunks: chunks`
for a `.json` file. -/
inductive PostProc
  | split_single
  | ident
deriving DecidableEq, Repr

/-- Apply a post-processing step; the assertion inside
`split_single_chunk` is embedded as `none`. -/
def applyPostProc : PostProc → List (List Fragment) → Option (List (List Fragment))
  | .split_single, chunks => split_single_chunk chunks
  | .ident, chunks => some chunks

/-- Split a file name at its LAST dot, `none` when it has no dot. -/
def lastDotSplit : LStr → Option (LStr × LStr)
  | [] => none
  | c :: cs =>
    match lastDotSplit cs with
    | some (p, q) => some (c :: p, q)
    | none => if c = '.' then some ([], c :: cs) else none

/-- `os.path.splitext` on a base file name: split off the extension at the
last dot, except that a name consisting of leading dots only has no
extension. -/
def splitext (fname : LStr) : LStr × LStr :=
  match lastDotSplit fname with
  | some (pre, suf) => if pre.all (· = '.') then (fname, []) else (pre, suf)
  | none => (fname, [])

/-- The error text `"Input files must have extension .v or .json ({})."`
formatted with the offending file name. -/
def inputErrMsg (fname : LStr) : LStr :=
  lstr "Input files must have extension .v or .json (" ++ fname ++ lstr ")."

/-- `read_input` (`cli.py`, lines 73-82).  File-system access is embedded
by passing the file's base name `fname`, its text `raw` (what `src.read()`
returns) and `parsed` (what `json.load(src)` returns; meaningful only for
a `.json` file).  A `.v` file yields the singleton chunk list `[raw]` and
the `split_single_chunk` post-processor; a `.json` file yields its parsed
content verbatim and the identity post-processor; any other extension
raises an `ArgumentTypeError` naming the file. -/
def read_input (fname raw : LStr) (parsed : List LStr) :
    Except LStr (LStr × List LStr × PostProc) :=
  let fext := (splitext fname).2
  if fext = lstr ".v" then .ok (fname, [raw], .split_single)
  else if fext = lstr ".json" then .ok (fname, parsed, .ident)
  else .error (inputErrMsg fname)

/-- One iteration of `main`'s loop (`cli.py`, lines 207-210) up to the
writer call: `annotated = pp(annotate(chunks, args.serapi_args))`, with the
external oracle `annotate` passed as a function. -/
def process_input (annotate : List LStr → List (List Fragment))
    (fname raw : LStr) (parsed : List LStr) :
    Except LStr (Option (List (List Fragment))) :=
  match read_input fname raw parsed with
  | .error e => .error e
  | .ok (_, chunks, pp) => .ok (applyPostProc pp (annotate chunks))

theorem splitAtLastNL_append (s : LStr) :
    ∀ p q, splitAtLastNL s = some (p, q) → p ++ q = s := by
  induction s with
  | nil => intro p q h; simp [splitAtLastNL] at h
  | cons c cs ih =>
    intro p q h
    simp only [splitAtLastNL] at h
    rcases hcs : splitAtLastNL cs with _ | ⟨p', q'⟩
    · rw [hcs] at h
      by_cases hc : c = '\n'
      · simp [hc] at h
        obtain ⟨hp, hq⟩ := h
        subst hp; subst hq; simp [hc]
      · simp [hc] at h
    · rw [hcs] at h
      simp at h
      obtain ⟨hp, hq⟩ := h
      subst hp; subst hq
      simpa using ih p' q' hcs

theorem splitAtLastNL_none (s : LStr) (h : splitAtLastNL s = none) : '\n' ∉ s := by
  induction s with
  | nil => simp
  | cons c cs ih =>
    simp only [splitAtLastNL] at h
    rcases hcs : splitAtLastNL cs with _ | r
    · rw [hcs] at h
      by_cases hc : c = '\n'
      · simp [hc] at h
      · simp [hc] at h ⊢
        exact ⟨fun he => hc he.symm, ih hcs⟩
    · rw [hcs] at h
      exact Option.noConfusion h

theorem splitAtLastNL_count (s : LStr) :
    ∀ p q, splitAtLastNL s = some (p, q) →
      p.count '\n' = s.count '\n' ∧ q.count '\n' = 0 := by
  induction s with
  | nil => intro p q h; simp [splitAtLastNL] at h
  | cons c cs ih =>
    intro p q h
    simp only [splitAtLastNL] at h
    rcases hcs : splitAtLastNL cs with _ | ⟨p', q'⟩
    · rw [hcs] at h
      by_cases hc : c = '\n'
      · rw [if_pos hc] at h
        simp only [Option.some.injEq, Prod.mk.injEq] at h
        obtain ⟨hp, hq⟩ := h
        have hcs0 : cs.count '\n' = 0 :=
          List.count_eq_zero.mpr (splitAtLastNL_none cs hcs)
        subst hq
        rw [← hp]
        constructor
        · simp [hc, List.count_cons, hcs0]
        · exact hcs0
      · simp [hc] at h
    · rw [hcs] at h
      simp only [Option.some.injEq, Prod.mk.injEq] at h
      obtain ⟨hp, hq⟩ := h
      obtain ⟨h1, h2⟩ := ih p' q' hcs
      subst hq
      rw [← hp]
      refine ⟨?_, h2⟩
      simp [List.count_cons, h1]

/-- A `COQ_SPLIT_RE` match decomposes the string: matched prefix plus
remainder reassemble to the original string. -/
theorem COQ_SPLIT_RE_match_append (s p r : LStr)
    (h : COQ_SPLIT_RE_match s = some (p, r)) : p ++ r = s := by
  unfold COQ_SPLIT_RE_match at h
  rcases hs : splitAtLastNL (s.takeWhile isBlank) with _ | ⟨p', q'⟩
  · rw [hs] at h; exact Option.noConfusion h
  · rw [hs] at h
    by_cases hc : 2 ≤ p'.count '\n'
    · simp only [hc, if_pos, Option.some.injEq, Prod.mk.injEq] at h
      obtain ⟨hp, hr⟩ := h
      subst hp
      have happ : p' ++ q' = s.takeWhile isBlank := splitAtLastNL_append _ _ _ hs
      have hps : p' ++ (q' ++ s.dropWhile isBlank) = s := by
        rw [← List.append_assoc, happ, List.takeWhile_append_dropWhile]
      have hdrop : s.drop p'.length = q' ++ s.dropWhile isBlank := by
        conv_lhs => rw [← hps]
        simp
      rw [← hr, hdrop, hps]
    · simp [hc] at h

/-- The fragments surviving partitioning, in order: flattening the output
of the partitioning loop gives the current chunk followed by the
per-fragment strip of the remaining input. -/
theorem partition_fragments_aux_flatten (fs : List Fragment) :
    ∀ cur, (partition_fragments_aux cur fs).flatten = cur ++ fs.flatMap stripFrag := by
  induction fs with
  | nil => intro cur; simp [partition_fragments_aux]
  | cons f rest ih =>
    intro cur
    match f with
    | .text s =>
      rcases hm : COQ_SPLIT_RE_match s with _ | ⟨p, r⟩
      · simp only [partition_fragments_aux, hm]
        rw [ih]
        simp [stripFrag, hm]
      · by_cases hcur : cur = []
        · by_cases hr : r = []
          · simp only [partition_fragments_aux, hm, if_pos hcur, if_pos hr]
            rw [ih]
            simp [stripFrag, hm, hr, hcur]
          · simp only [partition_fragments_aux, hm, if_pos hcur, if_neg hr]
            rw [ih]
            simp [stripFrag, hm, hr, hcur]
        · by_cases hr : r = []
          · simp only [partition_fragments_aux, hm, if_neg hcur, if_pos hr]
            simp only [List.flatten_cons]
            rw [ih]
            simp [stripFrag, hm, hr]
          · simp only [partition_fragments_aux, hm, if_neg hcur, if_neg hr]
            simp only [List.flatten_cons]
            rw [ih]
            simp [stripFrag, hm, hr]
    | .sentence s gs b =>
      simp only [partition_fragments_aux]
      rw [ih]
      simp [stripFrag]
    | .goal g =>
      simp only [partition_fragments_aux]
      rw [ih]
      simp [stripFrag]
    | .hypothesis h =>
      simp only [partition_fragments_aux]
      rw [ih]
      simp [stripFrag]

/-- The raw text surviving of a single fragment is its raw text with the
matched separator prefix removed. -/
theorem stripFrag_rawText (f : Fragment) :
    ((stripFrag f).map rawText).flatten = (rawText f).drop (matchedSep f).length := by
  match f with
  | .text s =>
    rcases hm : COQ_SPLIT_RE_match s with _ | ⟨p, r⟩
    · simp [stripFrag, matchedSep, rawText, hm]
    · have happ := COQ_SPLIT_RE_match_append s p r hm
      by_cases hr : r = []
      · simp only [stripFrag, matchedSep, rawText, hm, if_pos hr]
        rw [← happ]
        simp [hr]
      · simp only [stripFrag, matchedSep, rawText, hm, if_neg hr]
        rw [← happ]
        simp [rawText]
  | .sentence s gs b => simp [stripFrag, matchedSep, rawText]
  | .goal g => simp [stripFrag, matchedSep, rawText]
  | .hypothesis h => simp [stripFrag, matchedSep, rawText]

/-- C1: the fragments across all chunks returned by `partition_fragments`
are exactly the input fragments in their original relative order, each
`CoqText` with a leading blank-run separator stripped of it (and dropped
when nothing remains); hence the concatenated raw text of the output is
the concatenated raw text of the input with exactly the matched blank-run
separator characters removed — `matchedSep f` being a prefix of the raw
text of `f`, and the removed characters being exactly those prefixes. -/
theorem partition_fragments_text_conservation (l : List Fragment) :
    (partition_fragments l).flatten = l.flatMap stripFrag ∧
    ((partition_fragments l).flatten.map rawText).flatten
      = (l.map fun f => (rawText f).drop (matchedSep f).length).flatten ∧
    ∀ f, matchedSep f ++ (rawText f).drop (matchedSep f).length = rawText f := by
  have hflat : (partition_fragments l).flatten = l.flatMap stripFrag := by
    unfold partition_fragments
    rw [partition_fragments_aux_flatten]
    simp
  refine ⟨hflat, ?_, ?_⟩
  · rw [hflat]
    clear hflat
    induction l with
    | nil => simp
    | cons f rest ih =>
      simp only [List.flatMap_cons, List.map_append, List.map_cons,
        List.flatten_append, List.flatten_cons]
      rw [ih, stripFrag_rawText]
  · intro f
    match f with
    | .text s =>
      rcases hm : COQ_SPLIT_RE_match s with _ | ⟨p, r⟩
      · simp [matchedSep, rawText, hm]
      · have happ := COQ_SPLIT_RE_match_append s p r hm
        simp only [matchedSep, rawText, hm]
        conv_lhs => rw [← happ]
        simp only [List.drop_left]
        exact happ
    | .sentence s gs b => simp [matchedSep, rawText]
    | .goal g => simp [matchedSep, rawText]
    | .hypothesis h => simp [matchedSep, rawText]

/-- Loop step: a fragment without a leading blank-run separator is appended
to the current chunk, unchanged. -/
theorem partition_fragments_aux_append (cur : List Fragment) (f : Fragment)
    (rest : List Fragment) (hsep : isSep f = false) :
    partition_fragments_aux cur (f :: rest) = partition_fragments_aux (cur ++ [f]) rest := by
  match f with
  | .text s =>
    simp only [isSep] at hsep
    rcases hm : COQ_SPLIT_RE_match s with _ | ⟨p, r⟩
    · simp [partition_fragments_aux, hm]
    · rw [hm] at hsep; simp at hsep
  | .sentence s gs b => simp [partition_fragments_aux]
  | .goal g => simp [partition_fragments_aux]
  | .hypothesis h => simp [partition_fragments_aux]

/-- Loop step: a pure separator reaching a non-empty current chunk closes
it and leaves a fresh empty chunk. -/
theorem partition_fragments_aux_sep_pure (cur : List Fragment) (s p : LStr)
    (rest : List Fragment) (hm : COQ_SPLIT_RE_match s = some (p, []))
    (hcur : cur ≠ []) :
    partition_fragments_aux cur (Fragment.text s :: rest)
      = cur :: partition_fragments_aux [] rest := by
  simp [partition_fragments_aux, hm, hcur]

/-- Loop step: a separator with a non-empty remainder reaching a non-empty
current chunk closes it and starts the next chunk with the stripped
fragment. -/
theorem partition_fragments_aux_sep_cont (cur : List Fragment) (s p r : LStr)
    (rest : List Fragment) (hm : COQ_SPLIT_RE_match s = some (p, r))
    (hcur : cur ≠ []) (hr : r ≠ []) :
    partition_fragments_aux cur (Fragment.text s :: rest)
      = cur :: partition_fragments_aux [Fragment.text r] rest := by
  simp [partition_fragments_aux, hm, hcur, hr]

/-- Counting loop invariant for the partitioning loop: processing `fs` with
current chunk `cur` yields `(number of separators in fs) + 1` non-empty
chunks, provided no two separators in `fs` are adjacent, `fs` does not end
in a pure separator, and either `cur` is already non-empty or `fs` starts
with a non-separator. -/
theorem partition_fragments_aux_count (fs : List Fragment) :
    ∀ cur, List.Chain' (fun a b => isSep a = false ∨ isSep b = false) fs →
      (∀ f, fs.getLast? = some f → isPureSep f = false) →
      (cur ≠ [] ∨ ∃ g gs, fs = g :: gs ∧ isSep g = false) →
      (partition_fragments_aux cur fs).countP (fun c => !c.isEmpty)
        = fs.countP isSep + 1 := by
  induction fs with
  | nil =>
    intro cur _ _ hcur
    rcases hcur with hcur | ⟨g, gs, hgs, _⟩
    · simp [partition_fragments_aux, List.countP_cons, hcur]
    · exact absurd hgs (by simp)
  | cons f rest ih =>
    intro cur hchain hlast hcur
    have hchain' : List.Chain' (fun a b => isSep a = false ∨ isSep b = false) rest :=
      hchain.tail
    have hlast' : ∀ f', rest.getLast? = some f' → isPureSep f' = false := by
      intro f' hf'
      apply hlast
      rcases rest with _ | ⟨r0, rs⟩
      · simp at hf'
      · rw [List.getLast?_cons_cons]
        exact hf'
    by_cases hsep : isSep f = true
    · -- `f` is a separator: the current chunk cannot be empty.
      have hcurne : cur ≠ [] := by
        rcases hcur with hc | ⟨g, gs, hgs, hg⟩
        · exact hc
        · obtain ⟨rfl, _⟩ : g = f ∧ gs = rest := by
            constructor <;> [exact (List.cons.injEq .. ▸ hgs).1.symm;
                            exact (List.cons.injEq .. ▸ hgs).2.symm]
          rw [hsep] at hg
          exact absurd hg (by simp)
      obtain ⟨s, rfl⟩ : ∃ s, f = Fragment.text s := by
        match f with
        | .text s => exact ⟨s, rfl⟩
        | .sentence s gs b => simp [isSep] at hsep
        | .goal g => simp [isSep] at hsep
        | .hypothesis h => simp [isSep] at hsep
      obtain ⟨p, r, hm⟩ : ∃ p r, COQ_SPLIT_RE_match s = some (p, r) := by
        simp only [isSep] at hsep
        rcases hm : COQ_SPLIT_RE_match s with _ | ⟨p, r⟩
        · rw [hm] at hsep; simp at hsep
        · exact ⟨p, r, rfl⟩
      by_cases hr : r = []
      · -- pure separator: it cannot be last, and the next fragment is not
        -- a separator.
        subst hr
        have hpure : isPureSep (Fragment.text s) = true := by
          simp [isPureSep, hm]
        obtain ⟨g, gs, rfl⟩ : ∃ g gs, rest = g :: gs := by
          rcases rest with _ | ⟨g, gs⟩
          · have := hlast (Fragment.text s) (by simp)
            rw [hpure] at this
            exact absurd this (by simp)
          · exact ⟨g, gs, rfl⟩
        have hg : isSep g = false := by
          have hrel := List.chain'_cons.mp hchain
          rcases hrel.1 with h1 | h1
          · rw [hsep] at h1; exact absurd h1 (by simp)
          · exact h1
        rw [partition_fragments_aux_sep_pure cur s p _ hm hcurne]
        rw [List.countP_cons, ih [] hchain' hlast' (Or.inr ⟨g, gs, rfl, hg⟩)]
        have hcurb : cur.isEmpty = false := by
          simpa using hcurne
        simp [List.countP_cons, hsep, hcurb, hg]
      · rw [partition_fragments_aux_sep_cont cur s p r rest hm hcurne hr]
        rw [List.countP_cons, ih [Fragment.text r] hchain' hlast' (Or.inl (by simp))]
        have hcurb : cur.isEmpty = false := by
          simpa using hcurne
        simp [List.countP_cons, hsep, hcurb]
    · -- `f` is not a separator: it is appended to the current chunk.
      have hsepf : isSep f = false := by
        rcases hb : isSep f with _ | _
        · rfl
        · exact absurd hb hsep
      rw [partition_fragments_aux_append cur f rest hsepf]
      rw [ih (cur ++ [f]) hchain' hlast' (Or.inl (by simp)), List.countP_cons, hsepf]
      simp

/-- C3 (amended): partitioning a non-empty chunk that contains `k`
blank-run separators, no two adjacent, whose first fragment is not a
separator and whose last fragment is not a pure separator (one that strips
to empty), yields exactly `k + 1` non-empty output chunks. -/
theorem partition_fragments_chunk_count (l : List Fragment)
    (hne : l ≠ [])
    (hfirst : ∀ f, l.head? = some f → isSep f = false)
    (hadj : List.Chain' (fun a b => isSep a = false ∨ isSep b = false) l)
    (hlast : ∀ f, l.getLast? = some f → isPureSep f = false) :
    (partition_fragments l).countP (fun c => !c.isEmpty) = l.countP isSep + 1 := by
  unfold partition_fragments
  obtain ⟨g, gs, rfl⟩ : ∃ g gs, l = g :: gs := by
    rcases l with _ | ⟨g, gs⟩
    · exact absurd rfl hne
    · exact ⟨g, gs, rfl⟩
  exact partition_fragments_aux_count _ _ hadj hlast
    (Or.inr ⟨g, gs, rfl, hfirst g (by simp)⟩)

/-- C3 counterexample: the claim as stated fails on a chunk whose only
separator is leading (`[Text "\n\n\nX"]`: one separator, none adjacent,
but one non-empty output chunk rather than two) and on a chunk ending in a
pure separator (`[Text "a", Text "\n\n"]`: one separator, none adjacent,
but one non-empty output chunk rather than two). -/
theorem partition_fragments_chunk_count_counterexample :
    ([Fragment.text (lstr "\n\n\nX")].countP isSep = 1 ∧
     List.Chain' (fun a b => isSep a = false ∨ isSep b = false)
       [Fragment.text (lstr "\n\n\nX")] ∧
     (partition_fragments [Fragment.text (lstr "\n\n\nX")]).countP
       (fun c => !c.isEmpty) = 1) ∧
    ([Fragment.text (lstr "a"), Fragment.text (lstr "\n\n")].countP isSep = 1 ∧
     List.Chain' (fun a b => isSep a = false ∨ isSep b = false)
       [Fragment.text (lstr "a"), Fragment.text (lstr "\n\n")] ∧
     (partition_fragments
       [Fragment.text (lstr "a"), Fragment.text (lstr "\n\n")]).countP
       (fun c => !c.isEmpty) = 1) := by
  refine ⟨⟨by decide, ?_, by decide⟩, ⟨by decide, ?_, by decide⟩⟩
  · simp
  · simp only [List.chain'_cons, List.chain'_singleton, and_true]
    left
    decide

/-- C4 counterexample: on the Scenario A input the blank run is not a
prefix of the `Text` fragment's content, so `partition_fragments` performs
no split at all: it yields one chunk, not two. -/
theorem scenario_a_counterexample :
    COQ_SPLIT_RE_match (lstr "Intro.\n\n\nStep one.") = none ∧
    (partition_fragments
      [Fragment.text (lstr "Intro.\n\n\nStep one."),
       Fragment.sentence (lstr "tactic.") [] true]).length ≠ 2 := by
  constructor
  · decide
  · decide

/-- C4 (amended): on the input chunk
`[Text "Intro.\n\n\nStep one.", Sentence "tactic."]` `partition_fragments`
yields exactly one chunk, equal to the input: the blank run inside the
`Text` fragment's content is not a leading blank run, so no split is
triggered and both fragments stay together, unchanged. -/
theorem scenario_a_amended :
    partition_fragments
      [Fragment.text (lstr "Intro.\n\n\nStep one."),
       Fragment.sentence (lstr "tactic.") [] true]
    = [[Fragment.text (lstr "Intro.\n\n\nStep one."),
        Fragment.sentence (lstr "tactic.") [] true]] := by
  decide

/-- Witness for the amended chunk-count theorem at the concrete chunk
`[Text "a", Text "\n\nb"]` (one separator): two non-empty chunks. -/
theorem partition_fragments_chunk_count_witness :
    (partition_fragments
      [Fragment.text (lstr "a"), Fragment.text (lstr "\n\nb")]).countP
      (fun c => !c.isEmpty)
    = [Fragment.text (lstr "a"), Fragment.text (lstr "\n\nb")].countP isSep + 1 := by
  apply partition_fragments_chunk_count
  · simp
  · intro f hf
    simp only [List.head?_cons, Option.some.injEq] at hf
    rw [← hf]
    decide
  · simp only [List.chain'_cons, List.chain'_singleton, and_true]
    left
    decide
  · intro f hf
    simp only [List.getLast?_cons_cons, List.getLast?_singleton, Option.some.injEq] at hf
    rw [← hf]
    decide

/-- C6: a `Text` fragment whose content begins with a single line break —
`'\n'` followed by no further newline inside the leading blank run — never
triggers a split: `COQ_SPLIT_RE` does not match, and the partitioning loop
appends the fragment to the current chunk with its content unchanged. -/
theorem single_newline_no_split (s t : LStr) (hs : s = '\n' :: t)
    (hone : (t.takeWhile isBlank).count '\n' = 0) :
    COQ_SPLIT_RE_match s = none ∧
    ∀ cur fs, partition_fragments_aux cur (Fragment.text s :: fs)
      = partition_fragments_aux (cur ++ [Fragment.text s]) fs := by
  subst hs
  have hnone : COQ_SPLIT_RE_match ('\n' :: t) = none := by
    unfold COQ_SPLIT_RE_match
    have htw : ('\n' :: t).takeWhile isBlank = '\n' :: t.takeWhile isBlank := by
      rw [List.takeWhile_cons_of_pos]
      decide
    rw [htw]
    rcases hsp : splitAtLastNL ('\n' :: t.takeWhile isBlank) with _ | ⟨p, q⟩
    · rfl
    · have hcount := (splitAtLastNL_count _ _ _ hsp).1
      rw [List.count_cons] at hcount
      simp only [hone] at hcount
      have : ¬(2 ≤ p.count '\n') := by
        rw [hcount]
        simp
      show (if 2 ≤ p.count '\n'
            then some (p, ('\n' :: t).drop p.length) else none) = none
      rw [if_neg this]
  refine ⟨hnone, fun cur fs => ?_⟩
  apply partition_fragments_aux_append
  simp [isSep, hnone]

/-- Witness for the single-line-break theorem at `"\nfoo"`: no match, and
the fragment is appended to the singleton current chunk unchanged. -/
theorem single_newline_no_split_witness :
    COQ_SPLIT_RE_match ('\n' :: lstr "foo") = none ∧
    partition_fragments_aux [] [Fragment.text ('\n' :: lstr "foo")]
      = partition_fragments_aux ([] ++ [Fragment.text ('\n' :: lstr "foo")]) [] := by
  refine ⟨(single_newline_no_split ('\n' :: lstr "foo") (lstr "foo") rfl (by decide)).1,
    (single_newline_no_split ('\n' :: lstr "foo") (lstr "foo") rfl (by decide)).2 [] []⟩

/-- C7: `split_single_chunk` requires exactly one chunk: on a singleton
list it returns `partition_fragments` of the one chunk, on any other
length the assertion fails (embedded as `none`). -/
theorem split_single_chunk_spec :
    (∀ c, split_single_chunk [c] = some (partition_fragments c)) ∧
    (∀ chunks, chunks.length ≠ 1 → split_single_chunk chunks = none) := by
  constructor
  · intro c
    rfl
  · intro chunks hlen
    match chunks with
    | [] => rfl
    | [c] => exact absurd rfl hlen
    | c1 :: c2 :: rest => rfl

/-- Witness for the `split_single_chunk` contract: a singleton list is
partitioned, the empty list fails the length-one assertion. -/
theorem split_single_chunk_spec_witness :
    split_single_chunk [[Fragment.text (lstr "a")]]
      = some (partition_fragments [Fragment.text (lstr "a")]) ∧
    split_single_chunk [] = none :=
  ⟨split_single_chunk_spec.1 [Fragment.text (lstr "a")],
   split_single_chunk_spec.2 [] (by decide)⟩

/-- C10: `partition_fragments` splits only on blank runs that are a prefix
of a `Text` fragment's content: a `Text` fragment on which `COQ_SPLIT_RE`
finds no leading match (even when a blank run occurs later inside the same
content) is appended to the current chunk completely unchanged, and a
non-`Text` fragment is never inspected, trimmed or split — it is likewise
appended unchanged. -/
theorem partition_fragments_prefix_only :
    (∀ s, COQ_SPLIT_RE_match s = none →
       ∀ cur fs, partition_fragments_aux cur (Fragment.text s :: fs)
         = partition_fragments_aux (cur ++ [Fragment.text s]) fs) ∧
    (∀ f, (∀ s, f ≠ Fragment.text s) →
       ∀ cur fs, partition_fragments_aux cur (f :: fs)
         = partition_fragments_aux (cur ++ [f]) fs) := by
  constructor
  · intro s hnone cur fs
    apply partition_fragments_aux_append
    simp [isSep, hnone]
  · intro f hf cur fs
    apply partition_fragments_aux_append
    match f with
    | .text s => exact absurd rfl (hf s)
    | .sentence s gs b => simp [isSep]
    | .goal g => simp [isSep]
    | .hypothesis h => simp [isSep]

/-- Witness for prefix-only splitting: `Text "a\n\nb"` contains an interior
blank run but no leading one, and is appended unchanged; a `Sentence` is
appended unchanged. -/
theorem partition_fragments_prefix_only_witness :
    partition_fragments_aux [] [Fragment.text (lstr "a\n\nb")]
      = partition_fragments_aux ([] ++ [Fragment.text (lstr "a\n\nb")]) [] ∧
    partition_fragments_aux [] [Fragment.sentence (lstr "t.") [] true]
      = partition_fragments_aux ([] ++ [Fragment.sentence (lstr "t.") [] true]) [] := by
  refine ⟨partition_fragments_prefix_only.1 (lstr "a\n\nb") (by decide) [] [],
    partition_fragments_prefix_only.2 (Fragment.sentence (lstr "t.") [] true)
      (fun s => by simp) [] []⟩

/-- C8: the driver's post-processing depends only on the input's origin: a
`.v` unit is read as the one-element chunk list `[raw]` and its
post-processing (applied after annotation) is `split_single_chunk`, while a
`.json` unit is taken verbatim (the parsed content) and its
post-processing is the identity — it is never re-partitioned, whatever the
oracle returns. -/
theorem driver_postprocessing_by_origin (fname raw : LStr) (parsed : List LStr) :
    ((splitext fname).2 = lstr ".v" →
       read_input fname raw parsed = .ok (fname, [raw], .split_single) ∧
       ∀ annotate, process_input annotate fname raw parsed
         = .ok (split_single_chunk (annotate [raw]))) ∧
    ((splitext fname).2 = lstr ".json" →
       read_input fname raw parsed = .ok (fname, parsed, .ident) ∧
       ∀ annotate, process_input annotate fname raw parsed
         = .ok (some (annotate parsed))) := by
  constructor
  · intro hv
    have hread : read_input fname raw parsed = .ok (fname, [raw], .split_single) := by
      unfold read_input
      rw [if_pos hv]
    refine ⟨hread, fun annotate => ?_⟩
    unfold process_input
    rw [hread]
    rfl
  · intro hj
    have hne : (splitext fname).2 ≠ lstr ".v" := by
      rw [hj]
      decide
    have hread : read_input fname raw parsed = .ok (fname, parsed, .ident) := by
      unfold read_input
      rw [if_neg hne, if_pos hj]
    refine ⟨hread, fun annotate => ?_⟩
    unfold process_input
    rw [hread]
    rfl

/-- Witness for the origin dispatch at `"a.v"` and `"b.json"`, with a
constant oracle. -/
theorem driver_postprocessing_by_origin_witness :
    (read_input (lstr "a.v") (lstr "x") [] = .ok (lstr "a.v", [lstr "x"], .split_single) ∧
     process_input (fun _ => [[Fragment.text (lstr "x")]]) (lstr "a.v") (lstr "x") []
       = .ok (split_single_chunk [[Fragment.text (lstr "x")]])) ∧
    (read_input (lstr "b.json") (lstr "y") [lstr "c1"]
       = .ok (lstr "b.json", [lstr "c1"], .ident) ∧
     process_input (fun _ => [[Fragment.text (lstr "y")]]) (lstr "b.json") (lstr "y") [lstr "c1"]
       = .ok (some [[Fragment.text (lstr "y")]])) := by
  have hv := (driver_postprocessing_by_origin (lstr "a.v") (lstr "x") []).1 (by decide)
  have hj := (driver_postprocessing_by_origin (lstr "b.json") (lstr "y") [lstr "c1"]).2
    (by decide)
  exact ⟨⟨hv.1, hv.2 (fun _ => [[Fragment.text (lstr "x")]])⟩,
    ⟨hj.1, hj.2 (fun _ => [[Fragment.text (lstr "y")]])⟩⟩

/-- C9: for a file whose extension is neither `.v` nor `.json`,
`read_input` raises the input-shape error whose message is the fixed
template with the offending file name inserted — the file name occurs in
the message — and processing fails identically for every oracle, i.e.
before any oracle call; for the two recognized extensions no error is
raised. -/
theorem read_input_unrecognized_extension (fname raw : LStr) (parsed : List LStr) :
    ((splitext fname).2 ≠ lstr ".v" → (splitext fname).2 ≠ lstr ".json" →
       read_input fname raw parsed = .error (inputErrMsg fname) ∧
       (∃ pre suf, inputErrMsg fname = pre ++ fname ++ suf) ∧
       ∀ annotate1 annotate2 : List LStr → List (List Fragment),
         process_input annotate1 fname raw parsed
           = process_input annotate2 fname raw parsed) ∧
    ((splitext fname).2 = lstr ".v" ∨ (splitext fname).2 = lstr ".json" →
       ∃ res, read_input fname raw parsed = .ok res) := by
  constructor
  · intro hv hj
    have hread : read_input fname raw parsed = .error (inputErrMsg fname) := by
      unfold read_input
      rw [if_neg hv, if_neg hj]
    refine ⟨hread, ⟨lstr "Input files must have extension .v or .json (",
      lstr ").", rfl⟩, fun annotate1 annotate2 => ?_⟩
    unfold process_input
    rw [hread]
  · rintro (hv | hj)
    · exact ⟨_, by unfold read_input; rw [if_pos hv]⟩
    · have hne : (splitext fname).2 ≠ lstr ".v" := by
        rw [hj]
        decide
      exact ⟨_, by unfold read_input; rw [if_neg hne, if_pos hj]⟩

/-- Witness for the input-shape error at `"a.txt"` (unrecognized) and
`"a.v"` (recognized). -/
theorem read_input_unrecognized_extension_witness :
    (read_input (lstr "a.txt") (lstr "x") [] = .error (inputErrMsg (lstr "a.txt")) ∧
     (∃ pre suf, inputErrMsg (lstr "a.txt") = pre ++ lstr "a.txt" ++ suf) ∧
     process_input (fun _ => []) (lstr "a.txt") (lstr "x") []
       = process_input (fun _ => [[]]) (lstr "a.txt") (lstr "x") []) ∧
    (∃ res, read_input (lstr "a.v") (lstr "x") [] = .ok res) := by
  have hbad := (read_input_unrecognized_extension (lstr "a.txt") (lstr "x") []).1
    (by decide) (by decide)
  have hgood := (read_input_unrecognized_extension (lstr "a.v") (lstr "x") []).2
    (Or.inl (by decide))
  exact ⟨⟨hbad.1, hbad.2.1, hbad.2.2 (fun _ => []) (fun _ => [[]])⟩, hgood⟩

theorem prepareList_eq (xs : List PyVal) :
    prepare_json.prepareList xs = xs.map prepare_json := by
  induction xs with
  | nil => rfl
  | cons x xs ih => simp [prepare_json.prepareList, ih]

theorem prepareDict_eq (kvs : List (LStr × PyVal)) :
    prepare_json.prepareDict kvs = kvs.map fun kv => (kv.1, prepare_json kv.2) := by
  induction kvs with
  | nil => rfl
  | cons kv kvs ih =>
    rcases kv with ⟨k, v⟩
    simp [prepare_json.prepareDict, ih]

/-- C5: `prepare_json` maps every Fragment to a mapping holding exactly one
entry per field of its record (in field order) plus the discriminator
entry, placed under the key `"_type"` — the same key for all kinds — whose
value is a pure function of the fragment's kind and one of the five fixed
tokens of `COQ_TYPE_NAMES`; plain sequences, mappings and scalars encode
to themselves recursively. -/
theorem prepare_json_fragment_shape :
    (∀ f : Fragment,
       prepare_json (.frag f)
         = .obj ((lstr "_type", .atom (.str (discrOfKind (kindOf f)))) :: fieldEntries f) ∧
       (fieldEntries f).map Prod.fst = fieldNames (kindOf f) ∧
       discrOfKind (kindOf f) ∈ COQ_TYPE_NAMES.map Prod.snd) ∧
    COQ_TYPE_NAMES.length = 5 ∧
    (∀ xs, prepare_json (.list xs) = .arr (xs.map prepare_json)) ∧
    (∀ kvs, prepare_json (.dict kvs)
       = .obj (kvs.map fun kv => (kv.1, prepare_json kv.2))) ∧
    (∀ a, prepare_json (.atom a) = .atom a) := by
  refine ⟨?_, by decide, ?_, ?_, fun a => rfl⟩
  · intro f
    refine ⟨rfl, ?_, ?_⟩
    · match f with
      | .text s => rfl
      | .sentence s gs b => rfl
      | .goal g => rfl
      | .hypothesis h => rfl
    · match f with
      | .text s =>
        show discrOfKind FragKind.text ∈ COQ_TYPE_NAMES.map Prod.snd
        decide
      | .sentence s gs b =>
        show discrOfKind FragKind.sentence ∈ COQ_TYPE_NAMES.map Prod.snd
        decide
      | .goal g =>
        show discrOfKind FragKind.goal ∈ COQ_TYPE_NAMES.map Prod.snd
        decide
      | .hypothesis h =>
        show discrOfKind FragKind.hypothesis ∈ COQ_TYPE_NAMES.map Prod.snd
        decide
  · intro xs
    simp [prepare_json, prepareList_eq]
  · intro kvs
    simp [prepare_json, prepareDict_eq]

theorem decodeStrList_complete (l : List LStr) :
    decodeStrList (l.map fun s => Json.atom (.str s)) = some l := by
  induction l with
  | nil => rfl
  | cons s l ih => simp [decodeStrList, ih]

theorem decodeHyp_complete (h : CoqHypothesis) : decodeHyp (hypFields h) = some h := by
  match h with
  | ⟨names, t, none⟩ =>
    show (match decodeStrList (names.map fun n => Json.atom (.str n)),
            Json.atom Atom.null with
          | some ns, .atom .null => some (⟨ns, t, none⟩ : CoqHypothesis)
          | some ns, .atom (.str b) => some ⟨ns, t, some b⟩
          | _, _ => none) = some (⟨names, t, none⟩ : CoqHypothesis)
    rw [decodeStrList_complete]
  | ⟨names, t, some b⟩ =>
    show (match decodeStrList (names.map fun n => Json.atom (.str n)),
            Json.atom (Atom.str b) with
          | some ns, .atom .null => some (⟨ns, t, none⟩ : CoqHypothesis)
          | some ns, .atom (.str b) => some ⟨ns, t, some b⟩
          | _, _ => none) = some (⟨names, t, some b⟩ : CoqHypothesis)
    rw [decodeStrList_complete]

theorem decodeHypJson_complete (h : CoqHypothesis) : decodeHypJson (hypJson h) = some h := by
  show decodeHyp (hypFields h) = some h
  exact decodeHyp_complete h

theorem decodeHypList_complete (l : List CoqHypothesis) :
    decodeHypList (l.map hypJson) = some l := by
  induction l with
  | nil => rfl
  | cons h l ih => simp [decodeHypList, decodeHypJson_complete, ih]

theorem decodeGoal_complete (g : CoqGoal) : decodeGoal (goalFields g) = some g := by
  match g with
  | ⟨n, hs, c⟩ =>
    show (match decodeHypList (hs.map hypJson) with
          | some l => some (⟨n, l, c⟩ : CoqGoal)
          | none => none) = some (⟨n, hs, c⟩ : CoqGoal)
    rw [decodeHypList_complete]

theorem decodeGoalJson_complete (g : CoqGoal) : decodeGoalJson (goalJson g) = some g := by
  show decodeGoal (goalFields g) = some g
  exact decodeGoal_complete g

theorem decodeGoalList_complete (l : List CoqGoal) :
    decodeGoalList (l.map goalJson) = some l := by
  induction l with
  | nil => rfl
  | cons g l ih => simp [decodeGoalList, decodeGoalJson_complete, ih]

theorem decodeFrag_complete (f : Fragment) :
    decodeFrag ((lstr "_type", .atom (.str (typeToken (typeName f)))) :: fieldEntries f)
      = some (.frag f) := by
  match f with
  | .text s => rfl
  | .sentence s gs b =>
    show (match decodeGoalList (gs.map goalJson) with
          | some gl => some (PyVal.frag (.sentence s gl b))
          | none => none) = some (PyVal.frag (.sentence s gs b))
    rw [decodeGoalList_complete]
  | .goal g =>
    show (match decodeGoal (goalFields g) with
          | some g => some (PyVal.frag (.goal g))
          | none => none) = some (PyVal.frag (.goal g))
    rw [decodeGoal_complete]
  | .hypothesis h =>
    show (match decodeHyp (hypFields h) with
          | some h => some (PyVal.frag (.hypothesis h))
          | none => none) = some (PyVal.frag (.hypothesis h))
    rw [decodeHyp_complete]

theorem decodeHtmlFields_complete (h : HTMLSentence) :
    decodeHtmlFields (htmlFields h) = some h := by
  match h with
  | ⟨s, gs, b, m⟩ =>
    show (match decodeGoalList (gs.map goalJson) with
          | some gl => some (⟨s, gl, b, m⟩ : HTMLSentence)
          | none => none) = some (⟨s, gs, b, m⟩ : HTMLSentence)
    rw [decodeGoalList_complete]

/-- The renderer-specific fifth variant is accepted on decode: decoding the
encoding of any `HTMLSentence` yields it back. -/
theorem decodeFrag_html_complete (h : HTMLSentence) :
    decodeFrag ((lstr "_type", .atom (.str (typeToken (lstr "HTMLSentence"))))
        :: htmlFields h)
      = some (.html h) := by
  show (match decodeHtmlFields (htmlFields h) with
        | some h => some (PyVal.html h)
        | none => none) = some (PyVal.html h)
  rw [decodeHtmlFields_complete]

/-- Decoding the full encoding of an `HTMLSentence` value yields it back:
the fifth discriminator token round-trips through `decode_json` as well. -/
theorem decode_json_html_complete (h : HTMLSentence) :
    decode_json (prepare_json (.html h)) = some (.html h) := by
  show decode_json
    (.obj ((lstr "_type", .atom (.str (typeToken (lstr "HTMLSentence")))) :: htmlFields h))
    = some (.html h)
  have hmem : lstr "_type"
      ∈ (((lstr "_type", Json.atom (.str (typeToken (lstr "HTMLSentence"))))
          :: htmlFields h).map Prod.fst) := by
    rw [List.map_cons]
    exact List.mem_cons_self _ _
  simp only [decode_json, if_pos hmem, decodeFrag_html_complete h]

theorem decodeStrList_sound (ns : List Json) :
    ∀ l, decodeStrList ns = some l → (l.map fun s => Json.atom (.str s)) = ns := by
  induction ns with
  | nil =>
    intro l h
    have h2 : some ([] : List LStr) = some l := h
    injection h2 with h2
    subst h2
    rfl
  | cons x xs ih =>
    intro l h
    match x, h with
    | .atom (.str s), h =>
      simp only [decodeStrList] at h
      rcases hd : decodeStrList xs with _ | l'
      · rw [hd] at h
        exact Option.noConfusion h
      · rw [hd] at h
        simp only [Option.some.injEq] at h
        subst h
        simp [ih l' hd]
    | .atom .null, h => exact Option.noConfusion h
    | .atom (.bool b), h => exact Option.noConfusion h
    | .atom (.num n), h => exact Option.noConfusion h
    | .arr ys, h => exact Option.noConfusion h
    | .obj kvs, h => exact Option.noConfusion h

theorem decodeHyp_sound (kvs : List (LStr × Json)) (h : CoqHypothesis)
    (hd : decodeHyp kvs = some h) : hypFields h = kvs := by
  unfold decodeHyp at hd
  split at hd
  · rename_i k1 ns k2 t k3 bodyJ
    split at hd
    · rename_i hcond
      obtain ⟨hk1, hk2, hk3⟩ := hcond
      subst hk1; subst hk2; subst hk3
      split at hd
      · rename_i names heq
        simp only [Option.some.injEq] at hd
        subst hd
        simp [hypFields, decodeStrList_sound ns names heq]
      · rename_i names b heq
        simp only [Option.some.injEq] at hd
        subst hd
        simp [hypFields, decodeStrList_sound ns names heq]
      · exact Option.noConfusion hd
    · exact Option.noConfusion hd
  · exact Option.noConfusion hd

theorem decodeHypJson_sound (j : Json) (h : CoqHypothesis)
    (hd : decodeHypJson j = some h) : hypJson h = j := by
  unfold decodeHypJson at hd
  split at hd
  · rename_i k0 tok rest
    split at hd
    · rename_i hcond
      obtain ⟨hk0, htok⟩ := hcond
      subst hk0; subst htok
      rw [hypJson, decodeHyp_sound rest h hd]
      rfl
    · exact Option.noConfusion hd
  · exact Option.noConfusion hd

theorem decodeHypList_sound (xs : List Json) :
    ∀ l, decodeHypList xs = some l → l.map hypJson = xs := by
  induction xs with
  | nil =>
    intro l h
    have h2 : some ([] : List CoqHypothesis) = some l := h
    injection h2 with h2
    subst h2
    rfl
  | cons x xs ih =>
    intro l h
    simp only [decodeHypList] at h
    rcases hx : decodeHypJson x with _ | hyp
    · rw [hx] at h
      exact Option.noConfusion h
    · rw [hx] at h
      rcases hrest : decodeHypList xs with _ | l'
      · rw [hrest] at h
        exact Option.noConfusion h
      · rw [hrest] at h
        simp only [Option.some.injEq] at h
        subst h
        simp [decodeHypJson_sound x hyp hx, ih l' hrest]

theorem decodeGoal_sound (kvs : List (LStr × Json)) (g : CoqGoal)
    (hd : decodeGoal kvs = some g) : goalFields g = kvs := by
  unfold decodeGoal at hd
  split at hd
  · rename_i k1 n k2 hs k3 c
    split at hd
    · rename_i hcond
      obtain ⟨hk1, hk2, hk3⟩ := hcond
      subst hk1; subst hk2; subst hk3
      split at hd
      · rename_i l heq
        simp only [Option.some.injEq] at hd
        subst hd
        simp [goalFields, decodeHypList_sound hs l heq]
      · exact Option.noConfusion hd
    · exact Option.noConfusion hd
  · exact Option.noConfusion hd

theorem decodeGoalJson_sound (j : Json) (g : CoqGoal)
    (hd : decodeGoalJson j = some g) : goalJson g = j := by
  unfold decodeGoalJson at hd
  split at hd
  · rename_i k0 tok rest
    split at hd
    · rename_i hcond
      obtain ⟨hk0, htok⟩ := hcond
      subst hk0; subst htok
      rw [goalJson, decodeGoal_sound rest g hd]
      rfl
    · exact Option.noConfusion hd
  · exact Option.noConfusion hd

theorem decodeGoalList_sound (xs : List Json) :
    ∀ l, decodeGoalList xs = some l → l.map goalJson = xs := by
  induction xs with
  | nil =>
    intro l h
    have h2 : some ([] : List CoqGoal) = some l := h
    injection h2 with h2
    subst h2
    rfl
  | cons x xs ih =>
    intro l h
    simp only [decodeGoalList] at h
    rcases hx : decodeGoalJson x with _ | g
    · rw [hx] at h
      exact Option.noConfusion h
    · rw [hx] at h
      rcases hrest : decodeGoalList xs with _ | l'
      · rw [hrest] at h
        exact Option.noConfusion h
      · rw [hrest] at h
        simp only [Option.some.injEq] at h
        subst h
        simp [decodeGoalJson_sound x g hx, ih l' hrest]

theorem decodeFrag_sound (kvs : List (LStr × Json)) (v : PyVal)
    (hd : decodeFrag kvs = some v) : prepare_json v = Json.obj kvs := by
  unfold decodeFrag at hd
  split at hd
  · rename_i k0 tok rest
    split at hd
    · rename_i hk0
      subst hk0
      by_cases ht : tok = lstr "text"
      · rw [if_pos ht] at hd
        subst ht
        split at hd
        · rename_i k s
          split at hd
          · rename_i hk
            subst hk
            simp only [Option.some.injEq] at hd
            subst hd
            rfl
          · exact Option.noConfusion hd
        · exact Option.noConfusion hd
      · rw [if_neg ht] at hd
        by_cases hs : tok = lstr "sentence"
        · rw [if_pos hs] at hd
          subst hs
          split at hd
          · rename_i k1 s k2 gs k3 b
            split at hd
            · rename_i hcond
              obtain ⟨hk1, hk2, hk3⟩ := hcond
              subst hk1; subst hk2; subst hk3
              split at hd
              · rename_i gl heq
                simp only [Option.some.injEq] at hd
                subst hd
                simp [prepare_json, fieldEntries, typeName, kindOf, kindName,
                  decodeGoalList_sound gs gl heq]
                decide
              · exact Option.noConfusion hd
            · exact Option.noConfusion hd
          · exact Option.noConfusion hd
        · rw [if_neg hs] at hd
          by_cases hg : tok = lstr "goal"
          · rw [if_pos hg] at hd
            subst hg
            split at hd
            · rename_i g heq
              simp only [Option.some.injEq] at hd
              subst hd
              simp [prepare_json, fieldEntries, typeName, kindOf, kindName,
                decodeGoal_sound rest g heq]
              decide
            · exact Option.noConfusion hd
          · rw [if_neg hg] at hd
            by_cases hh : tok = lstr "hypothesis"
            · rw [if_pos hh] at hd
              subst hh
              split at hd
              · rename_i hyp heq
                simp only [Option.some.injEq] at hd
                subst hd
                simp [prepare_json, fieldEntries, typeName, kindOf, kindName,
                  decodeHyp_sound rest hyp heq]
                decide
              · exact Option.noConfusion hd
            · rw [if_neg hh] at hd
              by_cases hm : tok = lstr "html_sentence"
              · rw [if_pos hm] at hd
                subst hm
                split at hd
                · rename_i hs5 heq
                  simp only [Option.some.injEq] at hd
                  subst hd
                  have hfields : htmlFields hs5 = rest := by
                    unfold decodeHtmlFields at heq
                    split at heq
                    · rename_i k1 s k2 gs k3 b k4 m
                      split at heq
                      · rename_i hcond
                        obtain ⟨hk1, hk2, hk3, hk4⟩ := hcond
                        subst hk1; subst hk2; subst hk3; subst hk4
                        split at heq
                        · rename_i gl hgl
                          simp only [Option.some.injEq] at heq
                          subst heq
                          simp [htmlFields, decodeGoalList_sound gs gl hgl]
                        · exact Option.noConfusion heq
                      · exact Option.noConfusion heq
                    · exact Option.noConfusion heq
                  rw [← hfields]
                  rfl
                · exact Option.noConfusion hd
              · rw [if_neg hm] at hd
                exact Option.noConfusion hd
    · exact Option.noConfusion hd
  · exact Option.noConfusion hd

theorem decodeList_sound (xs : List Json)
    (hIH : ∀ x ∈ xs, ∀ v, decode_json x = some v → prepare_json v = x) :
    ∀ l, decode_json.decodeList xs = some l → prepare_json.prepareList l = xs := by
  induction xs with
  | nil =>
    intro l h
    have h2 : some ([] : List PyVal) = some l := h
    injection h2 with h2
    subst h2
    rfl
  | cons x xs ih =>
    intro l h
    simp only [decode_json.decodeList] at h
    rcases hx : decode_json x with _ | v
    · rw [hx] at h
      exact Option.noConfusion h
    · rw [hx] at h
      rcases hrest : decode_json.decodeList xs with _ | l'
      · rw [hrest] at h
        exact Option.noConfusion h
      · rw [hrest] at h
        simp only [Option.some.injEq] at h
        subst h
        have h1 := hIH x (by simp) v hx
        have h2 := ih (fun y hy => hIH y (by simp [hy])) l' hrest
        simp [prepare_json.prepareList, h1, h2]

theorem decodeDict_sound (kvs : List (LStr × Json))
    (hIH : ∀ kv ∈ kvs, ∀ v, decode_json kv.2 = some v → prepare_json v = kv.2) :
    ∀ d, decode_json.decodeDict kvs = some d → prepare_json.prepareDict d = kvs := by
  induction kvs with
  | nil =>
    intro d h
    have h2 : some ([] : List (LStr × PyVal)) = some d := h
    injection h2 with h2
    subst h2
    rfl
  | cons kv kvs ih =>
    rcases kv with ⟨k, x⟩
    intro d h
    simp only [decode_json.decodeDict] at h
    rcases hx : decode_json x with _ | v
    · rw [hx] at h
      exact Option.noConfusion h
    · rw [hx] at h
      rcases hrest : decode_json.decodeDict kvs with _ | d'
      · rw [hrest] at h
        exact Option.noConfusion h
      · rw [hrest] at h
        simp only [Option.some.injEq] at h
        subst h
        have h1 := hIH (k, x) (by simp) v hx
        have h2 := ih (fun kv hkv => hIH kv (by simp [hkv])) d' hrest
        simp [prepare_json.prepareDict, h1, h2]

/-- C2: the interchange encoding has an exact inverse — decoding the
encoding of any Fragment yields that Fragment back, and any value that the
decoder accepts (in particular any well-formed encoded mapping, mappings
under any of the five recognized discriminator tokens included — the
renderer-specific `"html_sentence"` among them) re-encodes to exactly the
original encoded form, `encode(decode(m)) == m`. -/
theorem interchange_round_trip :
    (∀ f : Fragment,
       decode_json (prepare_json (.frag f)) = some (.frag f)) ∧
    (∀ m v, decode_json m = some v → prepare_json v = m) := by
  constructor
  · intro f
    show decode_json
      (.obj ((lstr "_type", .atom (.str (typeToken (typeName f)))) :: fieldEntries f))
      = some (.frag f)
    have hmem : lstr "_type"
        ∈ (((lstr "_type", Json.atom (.str (typeToken (typeName f))))
            :: fieldEntries f).map Prod.fst) := by
      rw [List.map_cons]
      exact List.mem_cons_self _ _
    simp only [decode_json, if_pos hmem, decodeFrag_complete f]
  · intro m
    induction m using Json.inductionOn with
    | hatom a =>
      intro v h
      have h2 : some (PyVal.atom a) = some v := h
      injection h2 with h2
      subst h2
      rfl
    | harr xs hIH =>
      intro v h
      simp only [decode_json] at h
      rcases hl : decode_json.decodeList xs with _ | l
      · rw [hl] at h
        exact Option.noConfusion h
      · rw [hl] at h
        simp only [Option.some.injEq] at h
        subst h
        show Json.arr (prepare_json.prepareList l) = Json.arr xs
        rw [decodeList_sound xs hIH l hl]
    | hobj kvs hIH =>
      intro v h
      simp only [decode_json] at h
      by_cases hmem : lstr "_type" ∈ kvs.map Prod.fst
      · rw [if_pos hmem] at h
        exact decodeFrag_sound kvs v h
      · rw [if_neg hmem] at h
        rcases hdd : decode_json.decodeDict kvs with _ | d
        · rw [hdd] at h
          exact Option.noConfusion h
        · rw [hdd] at h
          simp only [Option.some.injEq] at h
          subst h
          show Json.obj (prepare_json.prepareDict d) = Json.obj kvs
          rw [decodeDict_sound kvs hIH d hdd]

/-- Witness for the round trip: a concrete sentence fragment carrying a
goal with one hypothesis decodes back from its encoding, and a concrete
accepted mapping under the renderer-specific fifth discriminator token
`"html_sentence"` re-encodes to the original mapping. -/
theorem interchange_round_trip_witness :
    decode_json (prepare_json (.frag (Fragment.sentence (lstr "auto.")
        [⟨lstr "g", [⟨[lstr "H"], lstr "nat", none⟩], lstr "True"⟩] true)))
      = some (.frag (Fragment.sentence (lstr "auto.")
        [⟨lstr "g", [⟨[lstr "H"], lstr "nat", none⟩], lstr "True"⟩] true)) ∧
    prepare_json (PyVal.html ⟨lstr "id.", [], true, lstr "<b>id.</b>"⟩)
      = Json.obj [(lstr "_type", .atom (.str (lstr "html_sentence"))),
                  (lstr "sentence", .atom (.str (lstr "id."))),
                  (lstr "goals", .arr []),
                  (lstr "outcome", .atom (.bool true)),
                  (lstr "html", .atom (.str (lstr "<b>id.</b>")))] :=
  ⟨interchange_round_trip.1 (Fragment.sentence (lstr "auto.")
      [⟨lstr "g", [⟨[lstr "H"], lstr "nat", none⟩], lstr "True"⟩] true),
   interchange_round_trip.2
     (Json.obj [(lstr "_type", .atom (.str (lstr "html_sentence"))),
                (lstr "sentence", .atom (.str (lstr "id."))),
                (lstr "goals", .arr []),
                (lstr "outcome", .atom (.bool true)),
                (lstr "html", .atom (.str (lstr "<b>id.</b>")))])
     (PyVal.html ⟨lstr "id.", [], true, lstr "<b>id.</b>"⟩) rfl⟩

end Alectryon
